import Mathlib

/-!
Shallow embedding of the EPUB translator pipeline (src/translator.py,
src/text_extractor.py, src/tools/text_extractor.py).

Python strings are modelled as Lean `String`s; Python dicts (the
translation caches / mappings) are modelled as association lists with
insertion-order semantics (`Dict` below): updating an existing key keeps
its position, a fresh key is appended at the end, keys are unique in any
dict produced by the model.  The external translation service is a
parameter (`Service`): a function from the request payload to either a
response string or an exception (`Except Unit String`).
-/

namespace EpubTranslator

/-- Characters Python treats as whitespace for `str.strip()` and for `\s`
in unicode regular expressions (ASCII whitespace, the C1 separators,
NEL, NBSP, and the Unicode space/separator code points). -/
def isPyWhitespace (c : Char) : Bool :=
  c = ' ' || c = '\t' || c = '\n' || c = '\r' ||
  c.val = 0x0B || c.val = 0x0C ||
  (0x1C ≤ c.val && c.val ≤ 0x1F) ||
  c.val = 0x85 || c.val = 0xA0 || c.val = 0x1680 ||
  (0x2000 ≤ c.val && c.val ≤ 0x200A) ||
  c.val = 0x2028 || c.val = 0x2029 || c.val = 0x202F ||
  c.val = 0x205F || c.val = 0x3000

/-- Python `str.strip()`: remove leading and trailing whitespace. -/
def pyStrip (s : String) : String :=
  ⟨((s.data.dropWhile isPyWhitespace).reverse.dropWhile isPyWhitespace).reverse⟩

/-- Model of `TextAnalyzer.japanese_specific_pattern`: the regex character class
`[ぁ-んァ-ン]`, i.e. hiragana U+3041–U+3093 or katakana U+30A1–U+30F3. -/
def isJapaneseSpecificChar (c : Char) : Bool :=
  (0x3041 ≤ c.val && c.val ≤ 0x3093) || (0x30A1 ≤ c.val && c.val ≤ 0x30F3)

/-- Model of `TextAnalyzer.is_japanese_specific`: `re.search` of the class above,
true iff some character of the text is hiragana/katakana. -/
def isJapaneseSpecific (s : String) : Bool :=
  s.data.any isJapaneseSpecificChar

/-- Character class of `TextAnalyzer.punctuation_only_pattern`:
`[「」…―\s]`. -/
def isPunctuationChar (c : Char) : Bool :=
  c = '「' || c = '」' || c = '…' || c = '―' || isPyWhitespace c

/-- Model of `TextAnalyzer.is_punctuation_only`: `re.match(r'^[「」…―\s]+$', text)`.
Since `\n` is itself in the class, the anchored match succeeds exactly
when the text is non-empty and every character lies in the class. -/
def isPunctuationOnly (s : String) : Bool :=
  !s.data.isEmpty && s.data.all isPunctuationChar

/-! ### Python dicts as association lists -/

/-- A Python dict of strings: an insertion-ordered association list. -/
abbrev Dict := List (String × String)

/-- Python `k in d` (key membership). -/
def dcontains (d : Dict) (k : String) : Bool :=
  d.any (fun p => p.1 = k)

/-- Python `d.get(k)`: `some` value or `none` when the key is absent. -/
def dget (d : Dict) (k : String) : Option String :=
  match d.find? (fun p => p.1 = k) with
  | some p => some p.2
  | none => none

/-- Python `d[k] = v`: an existing key keeps its position and gets the
new value, a fresh key is appended at the end. -/
def dset (d : Dict) (k v : String) : Dict :=
  if dcontains d k then
    d.map (fun p => if p.1 = k then (k, v) else p)
  else
    d ++ [(k, v)]

/-! ### Response parsing (`Translator.batch_translate_for_json`, lines 156–166) -/

/-- Python `s.split('\n')` on the character list of `s` (empty pieces
are kept, as Python does). -/
def splitLines : List Char → List (List Char)
  | [] => [[]]
  | c :: rest =>
    match splitLines rest with
    | [] => []
    | l :: ls => if c = '\n' then [] :: l :: ls else (c :: l) :: ls

/-- The list-comprehension
`[line.strip() for line in translation_text.split('\n') if line.strip()]`:
split the response on newlines, strip each line, drop blank lines. -/
def translatedLines (responseText : String) : List String :=
  ((splitLines responseText.data).map (fun cs => pyStrip ⟨cs⟩)).filter
    (fun l => !l.isEmpty)

/-- Model of `re.match(r'^\d+\.', line)`: the line starts with one or more decimal
digits immediately followed by a dot. -/
def hasNumberedHead (line : String) : Bool :=
  !(line.data.takeWhile Char.isDigit).isEmpty &&
  match line.data.dropWhile Char.isDigit with
  | '.' :: _ => true
  | _ => false

/-- Model of `re.sub(r'^\d+\.\s*', '', line)`: drop the leading digits, the dot and
any whitespace that follows (the line is assumed to match). -/
def dropNumberedHead (line : String) : String :=
  match line.data.dropWhile Char.isDigit with
  | '.' :: rest => ⟨rest.dropWhile isPyWhitespace⟩
  | _ => line

/-- The numbered-prefix cleanup loop (`cleaned_translations`). -/
def cleanedTranslations (responseText : String) : List String :=
  (translatedLines responseText).map
    (fun line => if hasNumberedHead line then dropNumberedHead line else line)

/-! ### The translation service and the cache-scan loop -/

/-- The external LLM service: given the list of texts placed in the
request payload, it either answers with a free-form response string or
raises an exception. `batch` is consulted by
`batch_translate_for_json`, `single` by `translate_single`. -/
structure Service where
  batch : List String → Except Unit String
  single : String → Except Unit String

/-- One step of the cache-check loop of `batch_translate_for_json`
(lines 98–110): a text joins `uncached_texts` unless the cache holds a
truthy value that has no Japanese-specific character and differs from the
text; in the latter case `translations[text] = cached`. -/
def scanStep (cache : Dict) (acc : Dict × List String) (text : String) :
    Dict × List String :=
  match dget cache text with
  | some ct =>
    if ct = "" then (acc.1, acc.2 ++ [text])
    else if isJapaneseSpecific ct ∨ text = ct then (acc.1, acc.2 ++ [text])
    else (dset acc.1 text ct, acc.2)
  | none => (acc.1, acc.2 ++ [text])

/-- The cache-check loop: returns the `translations` dict filled from
valid cache hits and the `uncached_texts` list, in input order. -/
def scanCache (texts : List String) (cache : Dict) : Dict × List String :=
  texts.foldl (scanStep cache) ([], [])

/-- Result of `batch_translate_for_json`: the returned `translations`
dict and the cache as left on disk/in memory after the call. -/
structure BatchOut where
  translations : Dict
  cache : Dict
deriving DecidableEq, Repr

/-- Model of `Translator.batch_translate_for_json` (lines 91–182).  The service
request carries `uncached_texts`; on success, the response is split and
cleaned, and the strict alignment check compares the cleaned line count
with `uncached_texts`; a mismatch maps every uncached text to itself
without touching the cache, an aligned response zips texts with lines and
persists each pair via `cache.set`.  An exception yields
`{text: text for text in texts}` and leaves the cache as it was. -/
def batchTranslateForJson (svc : Service) (texts : List String) (cache : Dict) :
    BatchOut :=
  if texts.isEmpty then ⟨[], cache⟩
  else
    let scanned := scanCache texts cache
    let translations := scanned.1
    let uncached := scanned.2
    if uncached.isEmpty then ⟨translations, cache⟩
    else
      match svc.batch uncached with
      | .ok responseText =>
        let cleaned := cleanedTranslations responseText
        if cleaned.length ≠ uncached.length then
          ⟨uncached.foldl (fun tr t => dset tr t t) translations, cache⟩
        else
          (uncached.zip cleaned).foldl
            (fun (acc : BatchOut) ot =>
              ⟨dset acc.translations ot.1 ot.2, dset acc.cache ot.1 ot.2⟩)
            ⟨translations, cache⟩
      | .error _ => ⟨texts.foldl (fun tr t => dset tr t t) [], cache⟩

/-- Model of `Translator.translate_single` (lines 184–226): returns the cached
value when it is truthy and valid; otherwise issues a single-text
request; the stripped response is cached and returned, and an exception
falls back to the source text with the cache untouched. -/
def translateSingle (svc : Service) (text : String) (cache : Dict) :
    String × Dict :=
  let request : String × Dict :=
    match svc.single text with
    | .ok responseText =>
      let translation := pyStrip responseText
      (translation, dset cache text translation)
    | .error _ => (text, cache)
  match dget cache text with
  | some ct =>
    if ct = "" then request
    else if isJapaneseSpecific ct ∨ text = ct then request
    else (ct, cache)
  | none => request

/-! ### `JsonProcessor.find_untranslated` (lines 253–297)

The loop iterates over the items of the JSON dict, mutating the dict in
place (only the value at the key currently visited) and collecting the
`untranslated` list.  Both the `check_japanese` branch and the initial
branch execute the very same statements, so a single function models
both.  The result is the pair (mutated dict, untranslated list). -/

/-- One iteration of the `find_untranslated` loop for the item
`(jp, ch)`. -/
def classifyStep (acc : Dict × List String) (entry : String × String) :
    Dict × List String :=
  if entry.1 = "" then acc
  else if entry.2 = "" ∨ isJapaneseSpecific entry.2 ∨ entry.1 = entry.2 then
    if isPunctuationOnly entry.1 then (dset acc.1 entry.1 entry.1, acc.2)
    else (acc.1, acc.2 ++ [entry.1])
  else acc

/-- Model of `JsonProcessor.find_untranslated`: scan every entry of `jsonData`,
self-map invalid punctuation-only sources in place, and return the
(possibly mutated) dict together with the `untranslated` list. -/
def findUntranslated (jsonData : Dict) : Dict × List String :=
  jsonData.foldl classifyStep (jsonData, [])

/-! ### `JsonProcessor.process` (lines 299–334) and `gpt_translation` -/

/-- The batch partition `untranslated[i:i+batch_size]` for
`i in range(0, len, batch_size)`.  Call sites always use a positive
`batchSize` (5 or 20); the `batchSize - 1` formulation only makes the
recursion structural. -/
def chunkList (batchSize : Nat) : List String → List (List String)
  | [] => []
  | t :: rest => (t :: rest.take (batchSize - 1)) :: chunkList batchSize (rest.drop (batchSize - 1))
termination_by l => l.length
decreasing_by
  simp only [List.length_drop, List.length_cons]
  omega

/-- Step 1 of `process`: run `batch_translate_for_json` on each batch and
fold the returned translations into `updated_json` via
`updated_json.update(translations)`; the cache object threads through
(its backing file is rewritten by every `cache.set`). -/
def batchPhase (svc : Service) : List (List String) → Dict → Dict → Dict × Dict
  | [], updatedJson, cache => (updatedJson, cache)
  | b :: rest, updatedJson, cache =>
    let out := batchTranslateForJson svc b cache
    let updatedJson := out.translations.foldl (fun d p => dset d p.1 p.2) updatedJson
    batchPhase svc rest updatedJson out.cache

/-- Step 2 of `process`: for each remaining untranslated text, call
`translate_single` and store the result in `updated_json`. -/
def repairPhase (svc : Service) : List String → Dict → Dict → Dict × Dict
  | [], updatedJson, cache => (updatedJson, cache)
  | t :: rest, updatedJson, cache =>
    let r := translateSingle svc t cache
    repairPhase svc rest (dset updatedJson t r.1) r.2

/-- Result of one `process` pass over one cache file: the contents left
in that cache file (rewritten by `cache.set` calls) and the contents
written to the output file by `save_json`. -/
structure PassOut where
  cacheFile : Dict
  output : Dict
deriving DecidableEq, Repr

/-- One iteration of the `for cache_file in self.cache_files` loop of
`JsonProcessor.process`, for a cache file whose current contents are
`fileData`.  When the scan finds nothing untranslated the (punctuation-
filled) dict is saved to the output file and the cache file is untouched;
otherwise `TranslationCache(cache_file)` re-reads the file, the batch
phase and the repair phase run, and the final `updated_json` is saved. -/
def processOne (svc : Service) (batchSize : Nat) (fileData : Dict) : PassOut :=
  let scanned := findUntranslated fileData
  if scanned.2.isEmpty then ⟨fileData, scanned.1⟩
  else
    let afterBatch := batchPhase svc (chunkList batchSize scanned.2) scanned.1 fileData
    let rescanned := findUntranslated afterBatch.1
    let afterRepair := repairPhase svc rescanned.2 rescanned.1 afterBatch.2
    ⟨afterRepair.2, afterRepair.1⟩

/-- The two cache files handled by one run of `gpt_translation`
(lines 479–499): `temp/translation_cache.json` (the seed cache) and
`temp/updated_translations.json` (the in-progress cache, which is also
the `JsonProcessor` output path). -/
structure RunFiles where
  seedCache : Dict
  updatedCache : Dict
deriving DecidableEq, Repr

/-- Model of `JsonProcessor.process` as driven by `gpt_translation`: the seed
cache is processed first (its `save_json` writes the output file, i.e.
the in-progress path), then the in-progress file — now holding the first
pass's output — is processed, and its `save_json` finally overwrites the
same path. -/
def processRun (svc : Service) (batchSize : Nat) (files : RunFiles) : RunFiles :=
  let pass1 := processOne svc batchSize files.seedCache
  let pass2 := processOne svc batchSize pass1.output
  ⟨pass1.cacheFile, pass2.output⟩

/-! ### `Update_Xhtml_Manager._update_single_file` (lines 424–465)

A paragraph element is modelled by whether it has a `<br>` descendant and
by its visible text, i.e. the value `p.get_text(strip=True)` — which is
always a stripped string.  `p.clear(); p.append(v)` leaves the element
with the single text node `v` (so no `<br>` remains) whose stripped
visible text is `pyStrip v`. -/

structure Para where
  hasBr : Bool
  text : String
deriving DecidableEq, Repr

/-- The body of the `for p in paragraphs` loop: skip structural elements
(`p.find("br")` or text `◇`), and when the text is a key of the mapping
replace the element's content with the mapped value, flagging a change. -/
def updatePara (translations : Dict) (p : Para) : Para × Bool :=
  if p.hasBr ∨ p.text = "◇" then (p, false)
  else
    match dget translations p.text with
    | some v => (⟨false, pyStrip v⟩, true)
    | none => (p, false)

/-- Model of `_update_single_file` on one XHTML file (a list of `<p>` elements):
the updated elements and the `changes_made` flag (the file is rewritten
iff the flag is true; when it is false the element list is unchanged). -/
def updateSingleFile (translations : Dict) (paras : List Para) :
    List Para × Bool :=
  ((paras.map (updatePara translations)).map Prod.fst,
   (paras.map (updatePara translations)).any Prod.snd)

/-! ### `TextExtractor` (src/tools/text_extractor.py) -/

/-- Model of `os.path.basename`: the part of a path after the last slash. -/
def baseName (path : String) : String :=
  ⟨(path.data.reverse.takeWhile (fun c => c ≠ '/')).reverse⟩

/-- Model of `os.path.dirname`: the part of a path before the last slash
(empty when the path has no slash; paths here are relative). -/
def dirName (path : String) : String :=
  if path.data.contains '/' then
    ⟨((path.data.reverse.dropWhile (fun c => c ≠ '/')).drop 1).reverse⟩
  else ""

/-- Model of `os.path.join` for the relative paths used by the extractor. -/
def joinPath (a b : String) : String :=
  if a = "" then b else a ++ "/" ++ b

/-- Decimal value of a digit run. -/
def digitsVal (cs : List Char) : Nat :=
  cs.foldl (fun n c => 10 * n + (c.toNat - '0'.toNat)) 0

/-- Model of `re.search(r'(\d+)', s)`: the first maximal digit run of `s`, as a
number; `none` when `s` has no digit. -/
def firstNumber : List Char → Option Nat
  | [] => none
  | c :: rest =>
    if c.isDigit then some (digitsVal (c :: rest.takeWhile Char.isDigit))
    else firstNumber rest

/-- Model of `get_file_number(filename)`: first embedded number of the basename;
`none` models the `float('inf')` sort key of number-free names. -/
def getFileNumber (filename : String) : Option Nat :=
  firstNumber (baseName filename).data

/-- The sort key of `get_file_number` as a value of `WithTop Nat`
(`float('inf')` becomes `⊤`). -/
def fileNumKey (filename : String) : WithTop Nat :=
  match getFileNumber filename with
  | some n => (n : WithTop Nat)
  | none => ⊤

/-- Comparison of two filenames by their embedded-number sort key. -/
def fileNumLe (a b : String) : Prop :=
  fileNumKey a ≤ fileNumKey b

instance : DecidableRel fileNumLe :=
  fun a b => inferInstanceAs (Decidable (fileNumKey a ≤ fileNumKey b))

instance : IsTotal String fileNumLe :=
  ⟨fun a b => le_total (fileNumKey a) (fileNumKey b)⟩

instance : IsTrans String fileNumLe :=
  ⟨fun _ _ _ hab hbc => le_trans hab hbc⟩

/-- Model of `sorted(files, key=get_file_number)`: a stable sort on the embedded-
number key (Python's Timsort and insertion sort are both stable, so they
agree on every input). -/
def sortByFileNumber (files : List String) : List String :=
  List.insertionSort fileNumLe files

/-- A manifest `<item>` of the `.opf` package document. -/
structure OpfItem where
  id : String
  href : String
  mediaType : String

/-- A parsed `.opf` package: the manifest items and the spine's `idref`
list in declared order. -/
structure OpfPackage where
  items : List OpfItem
  spine : List String

/-- The inputs `find_xhtml_files` reads from the extracted EPUB
directory: the parse of `META-INF/container.xml` (the `full-path` of the
rootfile, `none` when the file is missing or unparseable), the parse of
the `.opf` file at a given path, file existence, the
`find_subfolder_path` search, and the `*.xhtml` glob of a directory. -/
structure EpubFs where
  containerRootfile : Option String
  opfAt : String → Option OpfPackage
  fileExists : String → Bool
  subfolder : String → Option String
  globXhtml : String → List String

/-- The manifest dict built at lines 63–66: only items whose media type
is `application/xhtml+xml`, keyed by id. -/
def manifestOf (pkg : OpfPackage) : Dict :=
  pkg.items.foldl
    (fun d it =>
      if it.mediaType = "application/xhtml+xml" then dset d it.id it.href else d)
    []

/-- The spine loop of lines 72–84: walk the spine in declared order,
resolve each idref through the manifest, keep the files that exist. -/
def spineFilesOf (fs : EpubFs) (pkg : OpfPackage) (contentDir : String) :
    List String :=
  pkg.spine.foldl
    (fun acc idref =>
      match dget (manifestOf pkg) idref with
      | some href =>
        let full := joinPath (joinPath "extracted_epub" contentDir) href
        if fs.fileExists full then acc ++ [full] else acc
      | none => acc)
    []

/-- Model of `TextExtractor.find_xhtml_files` (src/tools/text_extractor.py lines
31–102): parse `container.xml` for the `.opf` path, parse the package,
collect spine-ordered existing XHTML files; when that list is empty,
fall back to a subfolder search (`Text`, then `xhtml`, then the content
directory) and a glob sorted by the first embedded filename number.
Returns `(xhtml_folder, xhtml_files)` or `none`. -/
def findXhtmlFiles (fs : EpubFs) : Option (String × List String) :=
  match fs.containerRootfile with
  | none => none
  | some opfPath =>
    match fs.opfAt opfPath with
    | none => none
    | some pkg =>
      let contentDir := dirName opfPath
      let files := spineFilesOf fs pkg contentDir
      if files.isEmpty then
        match fs.subfolder "Text" <|> fs.subfolder "xhtml" <|> fs.subfolder contentDir with
        | some dir => some (dir, sortByFileNumber (fs.globXhtml dir))
        | none => none
      else
        some (dirName (files.headD ""), files)

/-- The dict built by `generate_translation_cache` from the lines of the
extracted text file: every non-empty stripped line maps to `""`. -/
def cacheFromLines (lines : List String) : Dict :=
  lines.foldl
    (fun d line =>
      let s := pyStrip line
      if s ≠ "" then dset d s "" else d)
    []

/-- Model of `TextExtractor.generate_translation_cache` (lines 176–204 of
src/tools/text_extractor.py; identical in src/text_extractor.py lines
109–137).  Inputs: the current contents of the translation-cache file
(`none` when absent) and the lines of the input text file (`none` when
absent).  Output: the new cache-file contents and whether the input text
file was opened and read. -/
def generateTranslationCache (existingCache : Option Dict)
    (textFileLines : Option (List String)) : Option Dict × Bool :=
  match existingCache with
  | some cache => (some cache, false)
  | none =>
    match textFileLines with
    | none => (none, false)
    | some lines => (some (cacheFromLines lines), true)

/-- A service whose every request raises, for concrete runs of the
pipeline in which no request must succeed. -/
def noService : Service :=
  ⟨fun _ => .error (), fun _ => .error ()⟩

/-- A service answering every request with the fixed response `resp`. -/
def constService (resp : String) : Service :=
  ⟨fun _ => .ok resp, fun _ => .ok resp⟩

/-- A sample package with an empty spine, to exercise the fallback branch
of `find_xhtml_files`. -/
def emptySpinePkg : OpfPackage :=
  ⟨[⟨"c1", "ch1.xhtml", "application/xhtml+xml"⟩], []⟩

/-- A sample extracted-EPUB state whose spine yields no files and whose
`Text` subfolder holds three XHTML files, two numbered and one not. -/
def fallbackFs : EpubFs :=
  ⟨some "OEBPS/content.opf",
   fun _ => some emptySpinePkg,
   fun _ => false,
   fun target => if target = "Text" then some "extracted_epub/OEBPS/Text" else none,
   fun _ => ["b.xhtml", "ch10.xhtml", "ch2.xhtml"]⟩

/-- Classification used by the cache-check loops: `true` when the cache
holds no usable translation for `t` (absent, empty, containing
Japanese-specific characters, or identical to the source). -/
def uncachedPred (cache : Dict) (t : String) : Bool :=
  match dget cache t with
  | some ct => decide (ct = "" ∨ isJapaneseSpecific ct ∨ t = ct)
  | none => true

/-! ## Helper lemmas about the dict model -/

theorem dget_nil (k : String) : dget [] k = none := rfl

theorem dget_cons (p : String × String) (d : Dict) (k : String) :
    dget (p :: d) k = if p.1 = k then some p.2 else dget d k := by
  by_cases h : p.1 = k <;> simp [dget, List.find?, h]

theorem dcontains_cons (p : String × String) (d : Dict) (k : String) :
    dcontains (p :: d) k = (decide (p.1 = k) || dcontains d k) := by
  simp [dcontains, List.any]

theorem dget_isSome_iff_dcontains (d : Dict) (k : String) :
    (dget d k).isSome = dcontains d k := by
  induction d with
  | nil => rfl
  | cons p d ih =>
    rw [dget_cons, dcontains_cons]
    by_cases h : p.1 = k <;> simp [h, ih]

theorem dget_map_set (d : Dict) (k v : String) (h : dcontains d k = true) :
    dget (d.map (fun p => if p.1 = k then (k, v) else p)) k = some v := by
  induction d with
  | nil => simp [dcontains] at h
  | cons p d ih =>
    by_cases hp : p.1 = k
    · simp [hp, dget_cons]
    · rw [dcontains_cons] at h
      simp [hp] at h
      simp [hp, dget_cons, ih h]

theorem dget_dset_self (d : Dict) (k v : String) :
    dget (dset d k v) k = some v := by
  unfold dset
  by_cases h : dcontains d k
  · simp [h, dget_map_set d k v h]
  · simp [h]
    induction d with
    | nil => simp [dget_cons]
    | cons p d ih =>
      rw [dcontains_cons] at h
      simp at h
      simp [List.cons_append, dget_cons, h.1, ih (by simp [h.2])]

theorem dget_map_set_ne (d : Dict) (k v k' : String) (hne : k' ≠ k) :
    dget (d.map (fun p => if p.1 = k then (k, v) else p)) k' = dget d k' := by
  induction d with
  | nil => rfl
  | cons p d ih =>
    by_cases hp : p.1 = k
    · have hkk' : ¬ ((k, v).1 = k') := fun hh => hne (hh.symm)
      have hpk' : ¬ (p.1 = k') := by rw [hp]; exact fun hh => hne hh.symm
      simp only [List.map_cons, hp, if_pos rfl, dget_cons, hkk', if_neg, hpk', ih]
      simp [hkk', hpk']
    · simp only [List.map_cons, hp, if_neg, dget_cons, ih]
      simp [hp]

theorem dget_append_ne (d : Dict) (k v k' : String) (hne : k' ≠ k) :
    dget (d ++ [(k, v)]) k' = dget d k' := by
  induction d with
  | nil =>
    have : ¬ ((k, v).1 = k') := fun hh => hne hh.symm
    simp [dget_cons, this, dget_nil]
  | cons p d ih =>
    rw [List.cons_append, dget_cons, dget_cons, ih]

theorem dget_dset_ne (d : Dict) (k v k' : String) (hne : k' ≠ k) :
    dget (dset d k v) k' = dget d k' := by
  unfold dset
  by_cases h : dcontains d k
  · simp only [h, if_true, dget_map_set_ne d k v k' hne]
  · simp only [h, Bool.false_eq_true, if_false, dget_append_ne d k v k' hne]

/-- Membership in a dict is preserved by `dset` (and the key being set is
present afterwards). -/
theorem dget_dset_isSome (d : Dict) (k v k' : String)
    (h : (dget d k').isSome = true) : (dget (dset d k v) k').isSome = true := by
  by_cases hk : k' = k
  · subst hk; simp [dget_dset_self]
  · rwa [dget_dset_ne d k v k' hk]

/-- Folding identity assignments `d[t] = t` over a list: a key of the
list reads back as itself, any other key is untouched. -/
theorem dget_foldl_dset_id (l : List String) (d : Dict) (t : String) :
    dget (l.foldl (fun tr x => dset tr x x) d) t =
      if t ∈ l then some t else dget d t := by
  induction l generalizing d with
  | nil => simp
  | cons h rest ih =>
    rw [List.foldl_cons, ih]
    by_cases hr : t ∈ rest
    · simp [hr]
    · by_cases hh : t = h
      · subst hh; simp [hr, dget_dset_self]
      · simp [hr, hh, dget_dset_ne d h h t hh]

/-- Folding arbitrary assignments over a list of pairs preserves key
presence. -/
theorem dget_foldl_dset_isSome (l : List (String × String)) (d : Dict)
    (k : String) (h : (dget d k).isSome = true) :
    (dget (l.foldl (fun tr p => dset tr p.1 p.2) d) k).isSome = true := by
  induction l generalizing d with
  | nil => exact h
  | cons p rest ih => exact ih _ (dget_dset_isSome d p.1 p.2 k h)

/-! ## Helper lemmas about the cache-check loop -/

theorem scanStep_snd (cache : Dict) (acc : Dict × List String) (t : String) :
    (scanStep cache acc t).2 =
      acc.2 ++ (if uncachedPred cache t then [t] else []) := by
  unfold scanStep uncachedPred
  cases h : dget cache t with
  | none => simp
  | some ct =>
    by_cases he : ct = ""
    · simp [he]
    · by_cases hc : isJapaneseSpecific ct = true ∨ t = ct
      · simp [he, hc]
      · have : ¬ (ct = "" ∨ isJapaneseSpecific ct = true ∨ t = ct) := by
          intro h'
          rcases h' with h' | h'
          · exact he h'
          · exact hc h'
        simp [he, hc, this]

theorem scanStep_fst (cache : Dict) (acc : Dict × List String) (t : String) :
    (scanStep cache acc t).1 = acc.1 ∨
      ∃ ct, dget cache t = some ct ∧ (scanStep cache acc t).1 = dset acc.1 t ct := by
  unfold scanStep
  cases h : dget cache t with
  | none => left; rfl
  | some ct =>
    by_cases he : ct = ""
    · left; simp [he]
    · by_cases hc : isJapaneseSpecific ct = true ∨ t = ct
      · left; simp [he, hc]
      · right; exact ⟨ct, rfl, by simp [he, hc]⟩

/-- The `uncached_texts` list is exactly the input texts whose cache
entry is unusable, in input order. -/
theorem scanCache_snd (texts : List String) (cache : Dict) :
    (scanCache texts cache).2 = texts.filter (uncachedPred cache) := by
  suffices h : ∀ acc : Dict × List String,
      (texts.foldl (scanStep cache) acc).2 =
        acc.2 ++ texts.filter (uncachedPred cache) by
    simpa using h ([], [])
  induction texts with
  | nil => intro acc; simp
  | cons t rest ih =>
    intro acc
    rw [List.foldl_cons, ih, scanStep_snd]
    by_cases hu : uncachedPred cache t <;> simp [hu, List.filter_cons]

/-- Every value recorded in the `translations` dict during the cache
check is that key's own cache entry. -/
theorem scanCache_fst_sub (texts : List String) (cache : Dict) (t v : String)
    (h : dget (scanCache texts cache).1 t = some v) : dget cache t = some v := by
  suffices hgen : ∀ acc : Dict × List String,
      (∀ t v, dget acc.1 t = some v → dget cache t = some v) →
      ∀ t v, dget (texts.foldl (scanStep cache) acc).1 t = some v →
        dget cache t = some v by
    exact hgen ([], []) (by intro t v h'; simp [dget_nil] at h') t v h
  clear h
  clear t v
  induction texts with
  | nil => intro acc hacc; exact hacc
  | cons x rest ih =>
    intro acc hacc
    rw [List.foldl_cons]
    refine ih (scanStep cache acc x) ?_
    rcases scanStep_fst cache acc x with heq | ⟨ct, hct, heq⟩
    · rw [heq]; exact hacc
    · rw [heq]
      intro t v h'
      by_cases htx : t = x
      · subst htx
        rw [dget_dset_self] at h'
        rw [hct, ← h']
      · rw [dget_dset_ne _ _ _ _ htx] at h'
        exact hacc t v h'

/-- Reduction: an empty input batch returns at once. -/
theorem batchTranslateForJson_nil (svc : Service) (cache : Dict) :
    batchTranslateForJson svc [] cache = ⟨[], cache⟩ := rfl

/-- Reduction: with no uncached text, the cache hits are returned. -/
theorem batchTranslateForJson_allCached (svc : Service) (texts : List String)
    (cache : Dict) (hne : texts ≠ [])
    (hu : (scanCache texts cache).2 = []) :
    batchTranslateForJson svc texts cache = ⟨(scanCache texts cache).1, cache⟩ := by
  unfold batchTranslateForJson
  cases texts with
  | nil => exact absurd rfl hne
  | cons a l => simp [hu]

/-- Reduction: the strict-alignment-mismatch branch. -/
theorem batchTranslateForJson_mismatch (svc : Service) (texts : List String)
    (cache : Dict) (resp : String) (hne : texts ≠ [])
    (hu : (scanCache texts cache).2 ≠ [])
    (hok : svc.batch (scanCache texts cache).2 = .ok resp)
    (hmis : (cleanedTranslations resp).length ≠ (scanCache texts cache).2.length) :
    batchTranslateForJson svc texts cache =
      ⟨(scanCache texts cache).2.foldl (fun tr t => dset tr t t)
          (scanCache texts cache).1,
        cache⟩ := by
  unfold batchTranslateForJson
  cases texts with
  | nil => exact absurd rfl hne
  | cons a l => simp [List.isEmpty_iff, hu, hok, hmis]

/-- Reduction: the service-exception branch. -/
theorem batchTranslateForJson_error (svc : Service) (texts : List String)
    (cache : Dict) (hne : texts ≠ [])
    (hu : (scanCache texts cache).2 ≠ [])
    (herr : svc.batch (scanCache texts cache).2 = .error ()) :
    batchTranslateForJson svc texts cache =
      ⟨texts.foldl (fun tr t => dset tr t t) [], cache⟩ := by
  unfold batchTranslateForJson
  cases texts with
  | nil => exact absurd rfl hne
  | cons a l => simp [List.isEmpty_iff, hu, herr]

/-! ## Claim theorems -/

/-- C1: in `batch_translate_for_json`, when the service call succeeds
but the number of parsed response lines (stripped of numbering, blank
lines discarded) differs from the number of unresolved (uncached) units,
every unresolved unit is mapped to itself in the returned mapping, every
value in the returned mapping is either the unit itself or that same
unit's own cache entry (never another unit's translation), and the cache
is not updated. -/
theorem batch_mismatch_rejects_whole_batch (svc : Service)
    (texts : List String) (cache : Dict) (resp : String)
    (hok : svc.batch (scanCache texts cache).2 = .ok resp)
    (hmis : (cleanedTranslations resp).length ≠ (scanCache texts cache).2.length) :
    (batchTranslateForJson svc texts cache).cache = cache ∧
    (∀ t ∈ (scanCache texts cache).2,
      dget (batchTranslateForJson svc texts cache).translations t = some t) ∧
    (∀ t v, dget (batchTranslateForJson svc texts cache).translations t = some v →
      v = t ∨ dget cache t = some v) := by
  by_cases hempty : texts = []
  · subst hempty
    rw [batchTranslateForJson_nil]
    refine ⟨rfl, ?_, ?_⟩
    · intro t ht
      simp [scanCache] at ht
    · intro t v hv
      simp [dget_nil] at hv
  · by_cases huncached : (scanCache texts cache).2 = []
    · rw [batchTranslateForJson_allCached svc texts cache hempty huncached]
      refine ⟨rfl, ?_, ?_⟩
      · intro t ht
        rw [huncached] at ht
        simp at ht
      · intro t v hv
        exact Or.inr (scanCache_fst_sub texts cache t v hv)
    · rw [batchTranslateForJson_mismatch svc texts cache resp hempty huncached hok hmis]
      refine ⟨rfl, ?_, ?_⟩
      · intro t ht
        rw [dget_foldl_dset_id]
        simp [ht]
      · intro t v hv
        rw [dget_foldl_dset_id] at hv
        by_cases hmem : t ∈ (scanCache texts cache).2
        · rw [if_pos hmem] at hv
          exact Or.inl (Option.some.inj hv).symm
        · rw [if_neg hmem] at hv
          exact Or.inr (scanCache_fst_sub texts cache t v hv)

/-- C1 witness: a two-line response for a one-unit batch makes the unit
self-mapped and leaves the empty cache untouched. -/
theorem batch_mismatch_rejects_whole_batch_witness :
    (batchTranslateForJson (constService "A\nB") ["あ"] []).cache = [] ∧
    (∀ t ∈ (scanCache ["あ"] []).2,
      dget (batchTranslateForJson (constService "A\nB") ["あ"] []).translations t
        = some t) ∧
    (∀ t v,
      dget (batchTranslateForJson (constService "A\nB") ["あ"] []).translations t
        = some v → v = t ∨ dget [] t = some v) :=
  batch_mismatch_rejects_whole_batch (constService "A\nB") ["あ"] [] "A\nB"
    rfl (by decide)

/-- C9: when the service call for a batch raises, `batch_translate_for_json`
returns the identity mapping on the whole input list — including texts
that had just been resolved from valid cache entries, whose cached
translations are thereby overwritten by identity in the returned
mapping — and the cache file is not modified. -/
theorem batch_error_identity_overwrites_cache_hits (svc : Service)
    (texts : List String) (cache : Dict)
    (hu : (scanCache texts cache).2 ≠ [])
    (herr : svc.batch (scanCache texts cache).2 = .error ()) :
    (batchTranslateForJson svc texts cache).cache = cache ∧
    (∀ t, dget (batchTranslateForJson svc texts cache).translations t =
      if t ∈ texts then some t else none) := by
  have hne : texts ≠ [] := by
    intro h
    rw [h] at hu
    exact hu rfl
  rw [batchTranslateForJson_error svc texts cache hne hu herr]
  refine ⟨rfl, ?_⟩
  intro t
  rw [dget_foldl_dset_id]
  by_cases h : t ∈ texts <;> simp [h, dget_nil]

/-- C9 witness: `"き"` has a valid cached translation `"好"`, yet after a
failing batch call it is mapped to itself, not to `"好"`. -/
theorem batch_error_identity_overwrites_cache_hits_witness :
    (batchTranslateForJson noService ["き", "あ"] [("き", "好")]).cache
      = [("き", "好")] ∧
    (∀ t, dget (batchTranslateForJson noService ["き", "あ"] [("き", "好")]).translations t
      = if t ∈ ["き", "あ"] then some t else none) :=
  batch_error_identity_overwrites_cache_hits noService ["き", "あ"] [("き", "好")]
    (by decide) rfl

/-- C8: in the repair pass, a unit with no usable cache entry whose
single-unit request raises falls back to exactly its own source text,
the cache is untouched, and the loop continues with the remaining units
(the exception is absorbed inside `translate_single`). -/
theorem single_error_fallback_continues (svc : Service) (t : String)
    (cache : Dict) (rest : List String) (updatedJson : Dict)
    (hinv : uncachedPred cache t = true)
    (herr : svc.single t = .error ()) :
    translateSingle svc t cache = (t, cache) ∧
    repairPhase svc (t :: rest) updatedJson cache =
      repairPhase svc rest (dset updatedJson t t) cache := by
  have h1 : translateSingle svc t cache = (t, cache) := by
    unfold translateSingle
    unfold uncachedPred at hinv
    cases hdg : dget cache t with
    | none => simp [hdg, herr]
    | some ct =>
      rw [hdg] at hinv
      simp only [decide_eq_true_eq] at hinv
      by_cases he : ct = ""
      · simp [hdg, he, herr]
      · have hc : isJapaneseSpecific ct = true ∨ t = ct := by
          rcases hinv with h | h
          · exact absurd h he
          · exact h
        simp [hdg, he, hc, herr]
  refine ⟨h1, ?_⟩
  show repairPhase svc rest
      (dset updatedJson t (translateSingle svc t cache).1)
      (translateSingle svc t cache).2 = _
  rw [h1]

/-- C8 witness: a failing single request for `"あ"` over an empty cache
yields `("あ", unchanged cache)` and the loop equation. -/
theorem single_error_fallback_continues_witness :
    translateSingle noService "あ" [] = ("あ", []) ∧
    repairPhase noService ["あ"] [] [] =
      repairPhase noService [] (dset [] "あ" "あ") [] :=
  single_error_fallback_continues noService "あ" [] [] [] (by decide) rfl

end EpubTranslator

namespace EpubTranslator

/-- A punctuation-only string is non-empty. -/
theorem punct_ne_empty (s : String) (h : isPunctuationOnly s = true) :
    s ≠ "" := by
  intro hs
  subst hs
  simp [isPunctuationOnly] at h

/-- The untranslated accumulator only ever grows. -/
theorem classifyStep_snd_mono (acc : Dict × List String) (e : String × String)
    (jp : String) (h : jp ∈ acc.2) : jp ∈ (classifyStep acc e).2 := by
  unfold classifyStep
  by_cases h1 : e.1 = ""
  · simp only [h1, if_pos]
    exact h
  · by_cases h2 : e.2 = "" ∨ isJapaneseSpecific e.2 = true ∨ e.1 = e.2
    · by_cases h3 : isPunctuationOnly e.1 = true
      · simp only [h1, h2, h3, if_neg, if_pos, if_true]
        exact h
      · simp only [h1, h2, h3, if_neg, if_pos, if_false]
        exact List.mem_append_left _ h
    · simp only [h1, h2, if_neg]
      exact h

theorem foldl_classify_snd_mono (l : List (String × String))
    (acc : Dict × List String) (jp : String) (h : jp ∈ acc.2) :
    jp ∈ (l.foldl classifyStep acc).2 := by
  induction l generalizing acc with
  | nil => exact h
  | cons e rest ih => exact ih _ (classifyStep_snd_mono acc e jp h)

/-- An entry with a non-empty non-punctuation source and an invalid value
ends up in the untranslated list. -/
theorem foldl_classify_mem (l : List (String × String))
    (acc : Dict × List String) (jp ch : String) (hmem : (jp, ch) ∈ l)
    (hjp : jp ≠ "") (hnp : isPunctuationOnly jp = false)
    (hinv : ch = "" ∨ isJapaneseSpecific ch = true ∨ jp = ch) :
    jp ∈ (l.foldl classifyStep acc).2 := by
  induction l generalizing acc with
  | nil => simp at hmem
  | cons e rest ih =>
    rw [List.foldl_cons]
    rcases List.mem_cons.mp hmem with heq | hmem'
    · apply foldl_classify_snd_mono
      rw [← heq]
      unfold classifyStep
      simp only [hjp, hinv, hnp, if_neg, if_pos, Bool.false_eq_true, if_false]
      exact List.mem_append_right _ (List.mem_singleton.mpr rfl)
    · exact ih _ hmem'

/-- Anything appended to the untranslated list is non-punctuation. -/
theorem classifyStep_snd_new (acc : Dict × List String) (e : String × String)
    (jp : String) (h : jp ∈ (classifyStep acc e).2) :
    jp ∈ acc.2 ∨ (jp = e.1 ∧ isPunctuationOnly e.1 = false) := by
  unfold classifyStep at h
  by_cases h1 : e.1 = ""
  · rw [if_pos h1] at h
    exact Or.inl h
  · rw [if_neg h1] at h
    by_cases h2 : e.2 = "" ∨ isJapaneseSpecific e.2 = true ∨ e.1 = e.2
    · rw [if_pos h2] at h
      by_cases h3 : isPunctuationOnly e.1 = true
      · rw [if_pos h3] at h
        exact Or.inl h
      · rw [if_neg h3] at h
        rcases List.mem_append.mp h with h' | h'
        · exact Or.inl h'
        · exact Or.inr ⟨List.mem_singleton.mp h',
            Bool.eq_false_iff.mpr h3⟩
    · rw [if_neg h2] at h
      exact Or.inl h

/-- Every member of the final untranslated list is non-punctuation. -/
theorem foldl_classify_snd_punct_free (l : List (String × String))
    (acc : Dict × List String)
    (hacc : ∀ jp ∈ acc.2, isPunctuationOnly jp = false) :
    ∀ jp ∈ (l.foldl classifyStep acc).2, isPunctuationOnly jp = false := by
  induction l generalizing acc with
  | nil => exact hacc
  | cons e rest ih =>
    rw [List.foldl_cons]
    refine ih _ ?_
    intro jp hjp
    rcases classifyStep_snd_new acc e jp hjp with h | ⟨heq, hne⟩
    · exact hacc jp h
    · rw [heq]
      exact hne

/-- The dict side of the classification fold never touches keys that are
not keys of the processed entries. -/
theorem foldl_classify_fst_other (l : List (String × String))
    (acc : Dict × List String) (jp : String)
    (hnk : jp ∉ l.map Prod.fst) :
    dget (l.foldl classifyStep acc).1 jp = dget acc.1 jp := by
  induction l generalizing acc with
  | nil => rfl
  | cons e rest ih =>
    rw [List.map_cons] at hnk
    have hne : jp ≠ e.1 := fun h => hnk (List.mem_cons.mpr (Or.inl h))
    have hnk' : jp ∉ rest.map Prod.fst :=
      fun h => hnk (List.mem_cons.mpr (Or.inr h))
    rw [List.foldl_cons, ih _ hnk']
    unfold classifyStep
    by_cases h1 : e.1 = ""
    · rw [if_pos h1]
    · rw [if_neg h1]
      by_cases h2 : e.2 = "" ∨ isJapaneseSpecific e.2 = true ∨ e.1 = e.2
      · rw [if_pos h2]
        by_cases h3 : isPunctuationOnly e.1 = true
        · rw [if_pos h3]
          exact dget_dset_ne _ _ _ _ hne
        · rw [if_neg h3]
      · rw [if_neg h2]

/-- An invalid punctuation-only entry is rewritten to a self-mapping by
the classification fold (unique keys, as in a Python dict). -/
theorem foldl_classify_selfmap (l : List (String × String))
    (acc : Dict × List String) (jp ch : String)
    (hnodup : (l.map Prod.fst).Nodup) (hmem : (jp, ch) ∈ l)
    (hp : isPunctuationOnly jp = true)
    (hinv : ch = "" ∨ isJapaneseSpecific ch = true ∨ jp = ch) :
    dget (l.foldl classifyStep acc).1 jp = some jp := by
  induction l generalizing acc with
  | nil => simp at hmem
  | cons e rest ih =>
    rw [List.foldl_cons]
    rw [List.map_cons, List.nodup_cons] at hnodup
    rcases List.mem_cons.mp hmem with heq | hmem'
    · have hjp : jp ≠ "" := punct_ne_empty jp hp
      have hstep : (classifyStep acc e).1 = dset acc.1 jp jp := by
        rw [← heq]
        unfold classifyStep
        simp only [hjp, hinv, hp, if_neg, if_pos, if_true]
        simp
      have hnot : jp ∉ rest.map Prod.fst := by
        have : e.1 = jp := by rw [← heq]
        rw [← this]
        exact hnodup.1
      rw [foldl_classify_fst_other rest _ jp hnot, hstep, dget_dset_self]
    · exact ih _ hnodup.2 hmem'

/-- C3 counterexample: the cache entry `("…", "A")` has a punctuation-only
source but a valid distinct translation; the scan leaves it mapped to
`"A"`, not to itself, refuting the claim that every punctuation-only
source is self-mapped. -/
theorem punct_selfmap_counterexample :
    isPunctuationOnly "…" = true ∧
    dget (findUntranslated [("…", "A")]).1 "…" = some "A" ∧
    some "A" ≠ some "…" ∧
    (findUntranslated [("…", "A")]).2 = [] := by
  refine ⟨by decide, by decide, by decide, by decide⟩

/-- C3 (amended): a cache entry with a punctuation-only source is never
added to the untranslated set; it is self-mapped by the scan whenever its
current value is invalid (empty, script-residual, or identical); an entry
with a valid distinct translation keeps that translation. -/
theorem punct_selfmap_amended (d : Dict) (jp ch : String)
    (hnodup : (d.map Prod.fst).Nodup) (hmem : (jp, ch) ∈ d)
    (hp : isPunctuationOnly jp = true) :
    jp ∉ (findUntranslated d).2 ∧
    ((ch = "" ∨ isJapaneseSpecific ch = true ∨ jp = ch) →
      dget (findUntranslated d).1 jp = some jp) := by
  constructor
  · intro hin
    have := foldl_classify_snd_punct_free d (d, []) (by intro x hx; simp at hx)
      jp hin
    rw [hp] at this
    exact Bool.true_eq_false.mp this
  · intro hinv
    exact foldl_classify_selfmap d (d, []) jp ch hnodup hmem hp hinv

/-- C3 amended witness: the invalid entry `("…", "…")` is self-mapped and
not queued. -/
theorem punct_selfmap_amended_witness :
    "…" ∉ (findUntranslated [("…", "…")]).2 ∧
    (("…" : String) = "" ∨ isJapaneseSpecific "…" = true ∨ ("…" : String) = "…" →
      dget (findUntranslated [("…", "…")]).1 "…" = some "…") :=
  punct_selfmap_amended [("…", "…")] "…" "…" (by decide) (by decide) (by decide)

/-- C4: a cache entry whose source is non-empty and not punctuation-only
and whose value still contains hiragana/katakana is put back into the
untranslated set by the scan, even though the value is non-empty and
differs from the source. -/
theorem script_residual_readded (d : Dict) (jp ch : String)
    (hmem : (jp, ch) ∈ d) (hjp : jp ≠ "")
    (hnp : isPunctuationOnly jp = false)
    (hjs : isJapaneseSpecific ch = true)
    (_hne : ch ≠ "") (_hdiff : jp ≠ ch) :
    jp ∈ (findUntranslated d).2 :=
  foldl_classify_mem d (d, []) jp ch hmem hjp hnp (Or.inr (Or.inl hjs))

/-- C4 witness: the entry `("猫", "ねこ")` — non-empty value, different
from the source, but still containing hiragana — is re-queued. -/
theorem script_residual_readded_witness :
    "猫" ∈ (findUntranslated [("猫", "ねこ")]).2 :=
  script_residual_readded [("猫", "ねこ")] "猫" "ねこ" (by decide) (by decide)
    (by decide) (by decide) (by decide) (by decide)

/-- Updating an already-updated paragraph changes nothing when no stripped
mapping value is itself a mapping key. -/
theorem updatePara_second_run (m : Dict)
    (hval : ∀ k v, dget m k = some v → dget m (pyStrip v) = none) (p : Para) :
    updatePara m (updatePara m p).1 = ((updatePara m p).1, false) := by
  by_cases hs : p.hasBr = true ∨ p.text = "◇"
  · have h1 : updatePara m p = (p, false) := by
      unfold updatePara
      rw [if_pos hs]
    rw [h1]
    unfold updatePara
    rw [if_pos hs]
  · cases hdg : dget m p.text with
    | none =>
      have h1 : updatePara m p = (p, false) := by
        unfold updatePara
        rw [if_neg hs, hdg]
      rw [h1]
      unfold updatePara
      rw [if_neg hs, hdg]
    | some v =>
      have h1 : updatePara m p = (⟨false, pyStrip v⟩, true) := by
        unfold updatePara
        rw [if_neg hs, hdg]
      rw [h1]
      by_cases hglyph : pyStrip v = "◇"
      · unfold updatePara
        rw [if_pos (Or.inr hglyph)]
      · unfold updatePara
        rw [if_neg ?_, hval p.text v hdg]
        intro h
        rcases h with h | h
        · exact Bool.false_ne_true h
        · exact hglyph h

/-- When every element of a part is left unchanged with a false flag by
`updatePara`, the whole file update is the identity with no rewrite. -/
theorem updateSingleFile_fixed (m : Dict) (ps : List Para)
    (h : ∀ q ∈ ps, updatePara m q = (q, false)) :
    updateSingleFile m ps = (ps, false) := by
  unfold updateSingleFile
  rw [List.map_congr_left h, List.map_map]
  have h1 : (Prod.fst ∘ fun q : Para => (q, false)) = id := rfl
  rw [h1, List.map_id]
  simp

/-- C2 counterexample: with the mapping `{"a" ↦ "b", "b" ↦ "c"}` (the
value `"b"` is itself a key), a second run of the reinjection over the
already-updated paragraph rewrites it again, from `"b"` to `"c"`. -/
theorem reinjection_idempotent_counterexample :
    (updateSingleFile [("a", "b"), ("b", "c")]
        (updateSingleFile [("a", "b"), ("b", "c")] [⟨false, "a"⟩]).1).2 = true ∧
    (updateSingleFile [("a", "b"), ("b", "c")]
        (updateSingleFile [("a", "b"), ("b", "c")] [⟨false, "a"⟩]).1).1 ≠
      (updateSingleFile [("a", "b"), ("b", "c")] [⟨false, "a"⟩]).1 := by
  refine ⟨by decide, by decide⟩

/-- C2 (amended): reinjection is idempotent provided no stripped mapping
value is itself a key of the mapping: the second run finds each updated
paragraph's text equal to the translated value, which is then not a key,
so no element changes and the change flag stays false. -/
theorem reinjection_idempotent_amended (m : Dict)
    (hval : ∀ k v, dget m k = some v → dget m (pyStrip v) = none)
    (paras : List Para) :
    updateSingleFile m (updateSingleFile m paras).1 =
      ((updateSingleFile m paras).1, false) := by
  have hsecond : ∀ q ∈ (updateSingleFile m paras).1,
      updatePara m q = (q, false) := by
    intro q hq
    unfold updateSingleFile at hq
    simp only [List.map_map, List.mem_map, Function.comp] at hq
    obtain ⟨p, _, hpq⟩ := hq
    rw [← hpq]
    exact updatePara_second_run m hval p
  exact updateSingleFile_fixed m _ hsecond

/-- C2 amended witness: for the mapping `{"a" ↦ "你"}` (whose value is
not a key) the second run is the identity with a false change flag. -/
theorem reinjection_idempotent_amended_witness :
    updateSingleFile [("a", "你")]
        (updateSingleFile [("a", "你")] [⟨false, "a"⟩]).1 =
      ((updateSingleFile [("a", "你")] [⟨false, "a"⟩]).1, false) :=
  reinjection_idempotent_amended [("a", "你")]
    (by
      intro k v h
      rw [dget_cons] at h
      by_cases hk : ("a", "你").1 = k
      · rw [if_pos hk] at h
        have hv : v = "你" := (Option.some.inj h).symm
        rw [hv]
        decide
      · rw [if_neg hk] at h
        exact absurd h (by rw [dget_nil]; intro hh; cases hh))
    [⟨false, "a"⟩]

/-- C5 counterexample: a part that contains a `<p><br/></p>` paragraph
next to a translatable paragraph is rewritten anyway — the structural
element is skipped, but the part as a whole does get rewritten. -/
theorem structural_skip_counterexample :
    (updateSingleFile [("a", "b")] [⟨true, "x"⟩, ⟨false, "a"⟩]).2 = true ∧
    (updateSingleFile [("a", "b")] [⟨true, "x"⟩, ⟨false, "a"⟩]).1 ≠
      [⟨true, "x"⟩, ⟨false, "a"⟩] := by
  refine ⟨by decide, by decide⟩

/-- C5 (amended): structural paragraph elements — those containing a hard
line-break marker or whose text is exactly the section-break glyph `◇` —
are never modified and never set the change flag, for every mapping; and
a part consisting only of such elements is never rewritten. -/
theorem structural_skip_amended (m : Dict) (paras : List Para)
    (hstruct : ∀ p ∈ paras, p.hasBr = true ∨ p.text = "◇") :
    (∀ p : Para, (p.hasBr = true ∨ p.text = "◇") → updatePara m p = (p, false)) ∧
    updateSingleFile m paras = (paras, false) := by
  have hpara : ∀ p : Para, (p.hasBr = true ∨ p.text = "◇") →
      updatePara m p = (p, false) := by
    intro p hp
    unfold updatePara
    rw [if_pos hp]
  refine ⟨hpara, ?_⟩
  exact updateSingleFile_fixed m paras (fun p hp => hpara p (hstruct p hp))

/-- C5 amended witness: a part made of a `<br/>` paragraph and a `◇`
paragraph is untouched even though `"x"` and `"◇"` have translations. -/
theorem structural_skip_amended_witness :
    (∀ p : Para, (p.hasBr = true ∨ p.text = "◇") →
      updatePara [("x", "y"), ("◇", "z")] p = (p, false)) ∧
    updateSingleFile [("x", "y"), ("◇", "z")] [⟨true, "x"⟩, ⟨false, "◇"⟩] =
      ([⟨true, "x"⟩, ⟨false, "◇"⟩], false) :=
  structural_skip_amended [("x", "y"), ("◇", "z")] [⟨true, "x"⟩, ⟨false, "◇"⟩]
    (by decide)

/-- Each classification step either keeps the dict or self-maps the
current entry's key. -/
theorem classifyStep_fst_cases (acc : Dict × List String)
    (e : String × String) :
    (classifyStep acc e).1 = acc.1 ∨
      (classifyStep acc e).1 = dset acc.1 e.1 e.1 := by
  unfold classifyStep
  by_cases h1 : e.1 = ""
  · rw [if_pos h1]; exact Or.inl rfl
  · rw [if_neg h1]
    by_cases h2 : e.2 = "" ∨ isJapaneseSpecific e.2 = true ∨ e.1 = e.2
    · rw [if_pos h2]
      by_cases h3 : isPunctuationOnly e.1 = true
      · rw [if_pos h3]; exact Or.inr rfl
      · rw [if_neg h3]; exact Or.inl rfl
    · rw [if_neg h2]; exact Or.inl rfl

/-- The classification fold preserves key presence in the dict. -/
theorem foldl_classify_fst_isSome (l : List (String × String))
    (acc : Dict × List String) (k : String)
    (h : (dget acc.1 k).isSome = true) :
    (dget (l.foldl classifyStep acc).1 k).isSome = true := by
  induction l generalizing acc with
  | nil => exact h
  | cons e rest ih =>
    rw [List.foldl_cons]
    refine ih _ ?_
    rcases classifyStep_fst_cases acc e with hc | hc
    · rw [hc]; exact h
    · rw [hc]; exact dget_dset_isSome _ _ _ _ h

theorem findUntranslated_fst_isSome (d : Dict) (k : String)
    (h : (dget d k).isSome = true) :
    (dget (findUntranslated d).1 k).isSome = true :=
  foldl_classify_fst_isSome d (d, []) k h

/-- The batch phase of `process` only adds or overwrites keys of
`updated_json`, never removes one. -/
theorem batchPhase_fst_isSome (svc : Service) (bl : List (List String))
    (uj cache : Dict) (k : String) (h : (dget uj k).isSome = true) :
    (dget (batchPhase svc bl uj cache).1 k).isSome = true := by
  induction bl generalizing uj cache with
  | nil => exact h
  | cons b rest ih =>
    show (dget (batchPhase svc rest _ _).1 k).isSome = true
    exact ih _ _ (dget_foldl_dset_isSome _ _ _ h)

/-- The repair phase likewise preserves key presence. -/
theorem repairPhase_fst_isSome (svc : Service) (ts : List String)
    (uj cache : Dict) (k : String) (h : (dget uj k).isSome = true) :
    (dget (repairPhase svc ts uj cache).1 k).isSome = true := by
  induction ts generalizing uj cache with
  | nil => exact h
  | cons t rest ih =>
    show (dget (repairPhase svc rest _ _).1 k).isSome = true
    exact ih _ _ (dget_dset_isSome _ _ _ _ h)

/-- One pass of `process` keeps every key of the processed cache file in
the saved output. -/
theorem processOne_output_isSome (svc : Service) (bs : Nat) (d : Dict)
    (k : String) (h : (dget d k).isSome = true) :
    (dget (processOne svc bs d).output k).isSome = true := by
  unfold processOne
  by_cases hu : (findUntranslated d).2.isEmpty
  · simp only [hu, if_true]
    exact findUntranslated_fst_isSome d k h
  · simp only [hu, Bool.false_eq_true, if_false]
    exact repairPhase_fst_isSome _ _ _ _ _
      (findUntranslated_fst_isSome _ _
        (batchPhase_fst_isSome _ _ _ _ _
          (findUntranslated_fst_isSome d k h)))

/-- C6 counterexample: the in-progress cache holds the key `"k2"` with a
valid value, but the run's final output no longer contains it — the
first pass's save overwrites the in-progress file, so the output is not a
merge of the two cache files. -/
theorem two_pass_merge_counterexample :
    dget (RunFiles.updatedCache ⟨[("k1", "v1")], [("k2", "v2")]⟩) "k2"
      = some "v2" ∧
    dget (processRun noService 20 ⟨[("k1", "v1")], [("k2", "v2")]⟩).updatedCache
      "k2" = none := by
  refine ⟨by decide, by decide⟩

/-- C6 (amended): each run processes exactly the two cache files in fixed
order (seed first, then in-progress); each pass writes its validated
result to the single output path — the in-progress path — so the final
output equals the second pass's processing of the first pass's output,
and it contains an entry for every key of the seed cache; entries present
only in the original in-progress cache are overwritten, not merged. -/
theorem two_pass_fixed_order_amended (svc : Service) (bs : Nat)
    (files : RunFiles) :
    processRun svc bs files =
      ⟨(processOne svc bs files.seedCache).cacheFile,
        (processOne svc bs (processOne svc bs files.seedCache).output).output⟩ ∧
    (∀ k, (dget files.seedCache k).isSome = true →
      (dget (processRun svc bs files).updatedCache k).isSome = true) :=
  ⟨rfl, fun k h =>
    processOne_output_isSome svc bs _ k (processOne_output_isSome svc bs _ k h)⟩

/-- C6 amended witness at a concrete run. -/
theorem two_pass_fixed_order_amended_witness :
    processRun noService 20 ⟨[("k1", "v1")], [("k2", "v2")]⟩ =
      ⟨(processOne noService 20 [("k1", "v1")]).cacheFile,
        (processOne noService 20
          (processOne noService 20 [("k1", "v1")]).output).output⟩ ∧
    (∀ k, (dget [("k1", "v1")] k).isSome = true →
      (dget (processRun noService 20
        ⟨[("k1", "v1")], [("k2", "v2")]⟩).updatedCache k).isSome = true) :=
  two_pass_fixed_order_amended noService 20 ⟨[("k1", "v1")], [("k2", "v2")]⟩

/-- The spine loop is a filter-map over the declared spine order: resolve
each idref through the XHTML manifest and keep existing files. -/
theorem spineFilesOf_eq (fs : EpubFs) (pkg : OpfPackage) (cd : String) :
    spineFilesOf fs pkg cd = pkg.spine.filterMap (fun idref =>
      match dget (manifestOf pkg) idref with
      | some href =>
        if fs.fileExists (joinPath (joinPath "extracted_epub" cd) href)
        then some (joinPath (joinPath "extracted_epub" cd) href) else none
      | none => none) := by
  unfold spineFilesOf
  suffices h : ∀ (l : List String) (acc : List String),
      l.foldl (fun acc idref =>
        match dget (manifestOf pkg) idref with
        | some href =>
          let full := joinPath (joinPath "extracted_epub" cd) href
          if fs.fileExists full then acc ++ [full] else acc
        | none => acc) acc =
      acc ++ l.filterMap (fun idref =>
        match dget (manifestOf pkg) idref with
        | some href =>
          if fs.fileExists (joinPath (joinPath "extracted_epub" cd) href)
          then some (joinPath (joinPath "extracted_epub" cd) href) else none
        | none => none) by
    simpa using h pkg.spine []
  intro l
  induction l with
  | nil => intro acc; simp
  | cons i rest ih =>
    intro acc
    rw [List.foldl_cons, List.filterMap_cons]
    cases hdg : dget (manifestOf pkg) i with
    | none =>
      simp only [hdg]
      exact ih acc
    | some href =>
      simp only [hdg]
      by_cases hex :
          fs.fileExists (joinPath (joinPath "extracted_epub" cd) href) = true
      · simp only [hex, if_true]
        rw [ih]
        simp
      · simp only [hex, Bool.false_eq_true, if_false]
        exact ih acc

/-- C7: with parseable container and package metadata, the extractor
returns the spine-ordered list of existing XHTML files (a filter-map over
the declared spine); only when that list is empty does it fall back to a
directory listing sorted by the first embedded filename number, with
number-free files ordered last (the sorted list is a permutation of the
listing). -/
theorem spine_order_with_sorted_fallback (fs : EpubFs) (opfPath : String)
    (pkg : OpfPackage)
    (hc : fs.containerRootfile = some opfPath)
    (hopf : fs.opfAt opfPath = some pkg) :
    (spineFilesOf fs pkg (dirName opfPath) ≠ [] →
      findXhtmlFiles fs =
        some (dirName ((spineFilesOf fs pkg (dirName opfPath)).headD ""),
          spineFilesOf fs pkg (dirName opfPath)) ∧
      spineFilesOf fs pkg (dirName opfPath) =
        pkg.spine.filterMap (fun idref =>
          match dget (manifestOf pkg) idref with
          | some href =>
            if fs.fileExists
                (joinPath (joinPath "extracted_epub" (dirName opfPath)) href)
            then some (joinPath (joinPath "extracted_epub" (dirName opfPath)) href)
            else none
          | none => none)) ∧
    (spineFilesOf fs pkg (dirName opfPath) = [] →
      ∀ dir, (fs.subfolder "Text" <|> fs.subfolder "xhtml" <|>
          fs.subfolder (dirName opfPath)) = some dir →
        findXhtmlFiles fs = some (dir, sortByFileNumber (fs.globXhtml dir)) ∧
        List.Sorted fileNumLe (sortByFileNumber (fs.globXhtml dir)) ∧
        (sortByFileNumber (fs.globXhtml dir)).Pairwise
          (fun a b => getFileNumber a = none → getFileNumber b = none) ∧
        (sortByFileNumber (fs.globXhtml dir)).Perm (fs.globXhtml dir)) := by
  constructor
  · intro hne
    constructor
    · unfold findXhtmlFiles
      simp only [hc, hopf]
      simp [List.isEmpty_iff, hne]
    · exact spineFilesOf_eq fs pkg (dirName opfPath)
  · intro hnil dir hdir
    have hred : findXhtmlFiles fs = some (dir, sortByFileNumber (fs.globXhtml dir)) := by
      unfold findXhtmlFiles
      simp only [hc, hopf]
      simp only [hnil, List.isEmpty_nil, if_true]
      rw [hdir]
    have hsorted := List.sorted_insertionSort fileNumLe (fs.globXhtml dir)
    refine ⟨hred, hsorted, List.Pairwise.imp ?_ hsorted,
      List.perm_insertionSort fileNumLe (fs.globXhtml dir)⟩
    intro a b hle hna
    unfold fileNumLe fileNumKey at hle
    rw [hna] at hle
    cases hnb : getFileNumber b with
    | none => rfl
    | some n =>
      rw [hnb] at hle
      exact absurd (top_le_iff.mp hle) (by simp)

/-- C7 witness: a package whose spine yields no files falls back to the
`Text` folder listing sorted by embedded number, numberless names last. -/
theorem spine_order_with_sorted_fallback_witness :
    (spineFilesOf fallbackFs emptySpinePkg (dirName "OEBPS/content.opf") ≠ [] →
      findXhtmlFiles fallbackFs =
        some (dirName ((spineFilesOf fallbackFs emptySpinePkg
            (dirName "OEBPS/content.opf")).headD ""),
          spineFilesOf fallbackFs emptySpinePkg (dirName "OEBPS/content.opf")) ∧
      spineFilesOf fallbackFs emptySpinePkg (dirName "OEBPS/content.opf") =
        emptySpinePkg.spine.filterMap (fun idref =>
          match dget (manifestOf emptySpinePkg) idref with
          | some href =>
            if fallbackFs.fileExists
                (joinPath (joinPath "extracted_epub"
                  (dirName "OEBPS/content.opf")) href)
            then some (joinPath (joinPath "extracted_epub"
              (dirName "OEBPS/content.opf")) href)
            else none
          | none => none)) ∧
    (spineFilesOf fallbackFs emptySpinePkg (dirName "OEBPS/content.opf") = [] →
      ∀ dir, (fallbackFs.subfolder "Text" <|> fallbackFs.subfolder "xhtml" <|>
          fallbackFs.subfolder (dirName "OEBPS/content.opf")) = some dir →
        findXhtmlFiles fallbackFs =
          some (dir, sortByFileNumber (fallbackFs.globXhtml dir)) ∧
        List.Sorted fileNumLe (sortByFileNumber (fallbackFs.globXhtml dir)) ∧
        (sortByFileNumber (fallbackFs.globXhtml dir)).Pairwise
          (fun a b => getFileNumber a = none → getFileNumber b = none) ∧
        (sortByFileNumber (fallbackFs.globXhtml dir)).Perm
          (fallbackFs.globXhtml dir)) :=
  spine_order_with_sorted_fallback fallbackFs "OEBPS/content.opf" emptySpinePkg
    rfl rfl

/-- Lookup in the cache built from the text-file lines: a key is present
exactly when it is the non-empty strip of some line, and its value is
then `""`. -/
theorem dget_cacheFromLines (lines : List String) (k : String) :
    dget (cacheFromLines lines) k =
      if k ≠ "" ∧ k ∈ lines.map pyStrip then some "" else none := by
  unfold cacheFromLines
  suffices h : ∀ (l : List String) (d : Dict),
      dget (l.foldl (fun d line =>
        let s := pyStrip line
        if s ≠ "" then dset d s "" else d) d) k =
      if k ≠ "" ∧ k ∈ l.map pyStrip then some "" else dget d k by
    rw [h lines []]
    by_cases hcond : k ≠ "" ∧ k ∈ lines.map pyStrip
    · rw [if_pos hcond, if_pos hcond]
    · rw [if_neg hcond, if_neg hcond, dget_nil]
  intro l
  induction l with
  | nil =>
    intro d
    simp
  | cons line rest ih =>
    intro d
    rw [List.foldl_cons]
    rw [ih]
    by_cases hrest : k ≠ "" ∧ k ∈ rest.map pyStrip
    · rw [if_pos hrest, if_pos ⟨hrest.1, by
        rw [List.map_cons]
        exact List.mem_cons.mpr (Or.inr hrest.2)⟩]
    · rw [if_neg hrest]
      by_cases hs : pyStrip line ≠ ""
      · rw [if_pos hs]
        by_cases hk : k = pyStrip line
        · subst hk
          rw [dget_dset_self, if_pos ⟨hs,
            by rw [List.map_cons]; exact List.mem_cons.mpr (Or.inl rfl)⟩]
        · rw [dget_dset_ne _ _ _ _ hk, if_neg ?_]
          intro hcond
          rcases List.mem_cons.mp (by rw [List.map_cons] at hcond; exact hcond.2)
            with h' | h'
          · exact hk h'
          · exact hrest ⟨hcond.1, h'⟩
      · rw [if_neg hs, if_neg ?_]
        intro hcond
        rcases List.mem_cons.mp (by rw [List.map_cons] at hcond; exact hcond.2)
          with h' | h'
        · simp only [not_not] at hs
          rw [hs] at h'
          exact hcond.1 h'
        · exact hrest ⟨hcond.1, h'⟩

/-- C10: `generate_translation_cache` is a no-op when the cache file
exists — the cache file keeps its contents and the input text file is
not read; only when no cache file exists does it build a new cache
mapping exactly the non-empty stripped input lines to `""` (a missing
input file produces no cache and no read of it either). -/
theorem generate_cache_noop_when_exists :
    (∀ (cache : Dict) (input : Option (List String)),
      generateTranslationCache (some cache) input = (some cache, false)) ∧
    (∀ lines : List String,
      generateTranslationCache none (some lines) =
        (some (cacheFromLines lines), true)) ∧
    (∀ (lines : List String) (k : String),
      dget (cacheFromLines lines) k =
        if k ≠ "" ∧ k ∈ lines.map pyStrip then some "" else none) ∧
    generateTranslationCache none none = (none, false) :=
  ⟨fun _ _ => rfl, fun _ => rfl, fun lines k => dget_cacheFromLines lines k, rfl⟩

end EpubTranslator
